import Mathlib

/-!
Verification development for `heuristic_steiner_tree/kou_et_al.py`.

The repository implements the Kou–Markowsky–Berman Steiner-tree approximation
on top of the networkx graph engine.  The graph container is embedded as an
explicit structure below; the two networkx primitives the core delegates to
(`astar_path` / `astar_path_length` and `minimum_spanning_tree`) are external
collaborators, so `kou_et_al` is embedded as a function taking those two
primitives as arguments, and the theorems either quantify over all primitives
obeying the documented contract or plug in concrete table instances whose
contract conformance (genuine shortest paths, genuine minimum spanning trees)
is proved alongside.

Edge weights are modelled as natural numbers; an edge's weight attribute may
be absent (`Option Nat`), mirroring networkx edge-attribute dictionaries with
respect to the weight key passed to `kou_et_al`.
-/

/-- Undirected weighted graph, mirroring `nx.Graph`: node list in insertion
order, edge list in insertion order.  Each edge stores its two endpoints and
the optional value of the weight attribute. -/
structure Graph where
  nodes : List Nat
  edges : List (Nat × Nat × Option Nat)
deriving DecidableEq, Repr

namespace Graph

/-- The graph `nx.Graph()` with no nodes and no edges. -/
def empty : Graph := ⟨[], []⟩

/-- Node membership test. -/
def hasNode (g : Graph) (v : Nat) : Bool := g.nodes.contains v

/-- `g.add_node(v)`: appends `v` unless already present. -/
def addNode (g : Graph) (v : Nat) : Graph :=
  if g.hasNode v then g else ⟨g.nodes ++ [v], g.edges⟩

/-- `g.add_nodes_from(vs)`. -/
def addNodesFrom (g : Graph) (vs : List Nat) : Graph := vs.foldl addNode g

/-- Whether a stored edge joins `u` and `v` (undirected). -/
def matchesEdge (u v : Nat) (e : Nat × Nat × Option Nat) : Bool :=
  (e.1 == u && e.2.1 == v) || (e.1 == v && e.2.1 == u)

/-- `g[u][v]` then reading the weight attribute: `none` when the edge is
absent, `some none` when the edge exists but carries no weight attribute,
`some (some w)` when the attribute is present. -/
def getEdgeData (g : Graph) (u v : Nat) : Option (Option Nat) :=
  (g.edges.find? (matchesEdge u v)).map (fun e => e.2.2)

/-- `g.add_edge(u, v, weight := w)`: adds missing endpoints as nodes, then
either updates the existing edge's attribute in place or appends the edge. -/
def addEdge (g : Graph) (u v : Nat) (w : Option Nat) : Graph :=
  let g1 := (g.addNode u).addNode v
  if g1.edges.any (matchesEdge u v) then
    ⟨g1.nodes, g1.edges.map (fun e => if matchesEdge u v e then (e.1, e.2.1, w) else e)⟩
  else
    ⟨g1.nodes, g1.edges ++ [(u, v, w)]⟩

/-- Whether a stored edge touches `v`. -/
def incident (v : Nat) (e : Nat × Nat × Option Nat) : Bool := e.1 == v || e.2.1 == v

/-- `g.degree(v)`; a self-loop counts twice, as in networkx. -/
def degree (g : Graph) (v : Nat) : Nat :=
  (g.edges.map (fun e =>
    (if e.1 == v then 1 else 0) + (if e.2.1 == v then 1 else 0))).sum

/-- `next(g.neighbors(v))`: the first neighbour of `v` in adjacency order,
which for a graph never rebuilt is the order incident edges were added;
`none` models the `StopIteration` case of an isolated node. -/
def firstNeighbor (g : Graph) (v : Nat) : Option Nat :=
  (g.edges.find? (incident v)).map (fun e => if e.1 == v then e.2.1 else e.1)

/-- `g.remove_node(v)`: drops the node and every incident edge. -/
def removeNode (g : Graph) (v : Nat) : Graph :=
  ⟨g.nodes.erase v, g.edges.filter (fun e => !incident v e)⟩

/-- Weight of the edge `u v` with the networkx default of `1` when the weight
attribute is missing (used by traversal and MST primitives). -/
def weightOr1 (g : Graph) (u v : Nat) : Nat :=
  match g.getEdgeData u v with
  | some (some w) => w
  | _ => 1

/-- Total weight of a node sequence read as a walk in `g`. -/
def pathWeight (g : Graph) : List Nat → Nat
  | u :: v :: rest => weightOr1 g u v + pathWeight g (v :: rest)
  | _ => 0

/-- `itertools.pairwise`: consecutive pairs of a node sequence. -/
def pairwiseList : List Nat → List (Nat × Nat)
  | u :: v :: rest => (u, v) :: pairwiseList (v :: rest)
  | _ => []

/-- The stored edge list as ordered endpoint pairs, modelling iteration over
`g.edges()`. -/
def edgePairs (g : Graph) : List (Nat × Nat) := g.edges.map (fun e => (e.1, e.2.1))

end Graph

/-- `itertools.combinations(l, 2)` in its iteration order. -/
def combinations2 : List Nat → List (Nat × Nat)
  | [] => []
  | x :: xs => xs.map (fun y => (x, y)) ++ combinations2 xs

/-- Loop body of `get_complete_distance_graph`: for each remaining terminal
pair, query the shortest-path primitive and record the path length as the
edge weight; a failed query (unreachable pair, `NetworkXNoPath`) aborts,
carrying the partly built accumulator which is then discarded. -/
def distLoop (g0 : Graph) (astar : Graph → Nat → Nat → Option (List Nat))
    (acc : Graph) : List (Nat × Nat) → Except Graph Graph
  | [] => .ok acc
  | (p, q) :: rest =>
    match astar g0 p q with
    | none => .error acc
    | some path =>
      distLoop g0 astar (acc.addEdge p q (some (Graph.pathWeight g0 path))) rest

/-- `get_complete_distance_graph(g_original, terminal_nodes, heuristic, weight)`.
The `astar` argument models the external primitive
`nx.shortest_paths.astar_path` applied with the given heuristic and weight
key; `astar_path_length` is the total weight of that path, which is how
networkx computes it.  Modelled from the spec: `heuristic_shortest_path`
fails exactly when the target is unreachable and returns a shortest path
under an admissible heuristic. -/
def get_complete_distance_graph (g0 : Graph)
    (astar : Graph → Nat → Nat → Option (List Nat)) (T : List Nat) :
    Except Graph Graph :=
  distLoop g0 astar (Graph.empty.addNodesFrom T) (combinations2 T)

/-- A node removal performed by `remove_redundant_nodes`, with the node's
degree at the moment `g.remove_node(node)` runs. -/
structure RemEv where
  node : Nat
  deg : Nat
deriving DecidableEq, Repr

/-- A worklist append performed by `remove_redundant_nodes`, with the
neighbour's degree just after its removed neighbour disappeared and whether
the neighbour was already queued. -/
structure EnqEv where
  node : Nat
  degAfter : Nat
  already : Bool
deriving DecidableEq, Repr

/-- One pass of `for node in leaf_non_terminal_nodes[:]` over the snapshot:
look up the node's first neighbour (`StopIteration` on an isolated node and
`NetworkXError` on an already removed node surface as `.error`, carrying the
graph state at the crash), append the neighbour to the live worklist when it
is not a terminal, drop the processed node from the worklist and from the
graph.  Removal and enqueue events are logged for the invariant claims. -/
def processSnapshot (T : List Nat) :
    Graph → List Nat → List RemEv → List EnqEv → List Nat →
    Except Graph (Graph × List Nat × List RemEv × List EnqEv)
  | g, L, rs, es, [] => .ok (g, L, rs, es)
  | g, L, rs, es, node :: rest =>
    if g.hasNode node then
      match g.firstNeighbor node with
      | none => .error g
      | some nb =>
        let g' := g.removeNode node
        let enq := !(T.contains nb)
        let es' := if enq then es ++ [⟨nb, g'.degree nb, L.contains nb⟩] else es
        let L' := (if enq then L ++ [nb] else L).erase node
        processSnapshot T g' L' (rs ++ [⟨node, g.degree node⟩]) es' rest
    else .error g

/-- The `while leaf_non_terminal_nodes:` loop.  The fuel argument only bounds
the number of rounds so the recursion is structural; `pruneRounds_isSome`
proves that `nodes.length + 1` rounds always suffice, so the `none` branch is
unreachable at the fuel `remove_redundant_nodes` supplies. -/
def pruneRounds (T : List Nat) :
    Nat → Graph → List Nat → List RemEv → List EnqEv →
    Option (Except Graph (Graph × List RemEv × List EnqEv))
  | 0, _, _, _, _ => none
  | _ + 1, g, [], rs, es => some (.ok (g, rs, es))
  | fuel + 1, g, node :: rest, rs, es =>
    match processSnapshot T g (node :: rest) rs es (node :: rest) with
    | .error gc => some (.error gc)
    | .ok (g', L', rs', es') => pruneRounds T fuel g' L' rs' es'

/-- `remove_redundant_nodes(g_original, terminal_nodes)` with its removal and
enqueue log.  The first line `g = nx.Graph(g_original)` copies the argument;
the worklist starts as the non-terminal degree-1 nodes in node order. -/
def remove_redundant_nodesT (g_original : Graph) (T : List Nat) :
    Except Graph (Graph × List RemEv × List EnqEv) :=
  let g := g_original
  let L := g.nodes.filter (fun v => g.degree v == 1 && !(T.contains v))
  (pruneRounds T (g.nodes.length + 1) g L [] []).getD (.error g)

/-- `remove_redundant_nodes` as the caller sees it: the pruned graph, or a
propagated exception. -/
def remove_redundant_nodes (g_original : Graph) (T : List Nat) :
    Except Graph Graph :=
  (remove_redundant_nodesT g_original T).map (fun r => r.1)

/-- Inner loop of the path expansion: for each consecutive pair of the
returned shortest path, `g3.add_edge(u, v, weight := g_original[u][v][weight])`;
a missing edge or missing weight attribute is a `KeyError`, which aborts. -/
def addPathEdges (g0 : Graph) (acc : Graph) :
    List (Nat × Nat) → Except Graph Graph
  | [] => .ok acc
  | (u, v) :: rest =>
    match g0.getEdgeData u v with
    | some (some w) => addPathEdges g0 (acc.addEdge u v (some w)) rest
    | _ => .error acc

/-- Loop over `g2.edges()`: recompute the shortest path for each selected
terminal pair and union its edges into the accumulator subgraph. -/
def expandLoop (g0 : Graph) (astar : Graph → Nat → Nat → Option (List Nat))
    (acc : Graph) : List (Nat × Nat) → Except Graph Graph
  | [] => .ok acc
  | (s, t) :: rest =>
    match astar g0 s t with
    | none => .error acc
    | some path =>
      match addPathEdges g0 acc (Graph.pairwiseList path) with
      | .error gc => .error gc
      | .ok acc' => expandLoop g0 astar acc' rest

/-- `kou_et_al(g_original, heuristic_function, terminal_points, weight)`.
The `astar` argument models `nx.shortest_paths.astar_path` with the given
heuristic and weight key; `mst` models `nx.minimum_spanning_tree` with the
given weight key.  Any exception raised by a stage propagates to the caller
as `.error ()`; no graph is returned in that case. -/
def kou_et_al (g0 : Graph) (astar : Graph → Nat → Nat → Option (List Nat))
    (mst : Graph → Graph) (T : List Nat) : Except Unit Graph :=
  match get_complete_distance_graph g0 astar T with
  | .error _ => .error ()
  | .ok g1 =>
    let g2 := mst g1
    match expandLoop g0 astar Graph.empty (Graph.edgePairs g2) with
    | .error _ => .error ()
    | .ok g3 =>
      let g4 := mst g3
      match remove_redundant_nodes g4 T with
      | .error _ => .error ()
      | .ok g5 => .ok g5

/-! ## Semantic notions used to state the claims -/

/-- One expansion step of reachability: keep the nodes already reached and add
every node joined by an edge to a reached node. -/
def reachStep (g : Graph) (s : List Nat) : List Nat :=
  g.nodes.filter (fun v =>
    s.contains v || g.edges.any (fun e =>
      (e.1 == v && s.contains e.2.1) || (e.2.1 == v && s.contains e.1)))

/-- Iterated expansion. -/
def reachIter (g : Graph) : Nat → List Nat → List Nat
  | 0, s => s
  | n + 1, s => reachIter g n (reachStep g s)

/-- Whether `v` is reachable from `u` in `g` (iterating once per node closes
the reachable set). -/
def reachB (g : Graph) (u v : Nat) : Bool :=
  (reachIter g g.nodes.length [u]).contains v

/-- Whether `g` is connected: every node reaches every node. -/
def connectedB (g : Graph) : Bool :=
  g.nodes.all (fun u => g.nodes.all (fun v => reachB g u v))

/-- All neighbours of `u` in adjacency order. -/
def neighborsList (g : Graph) (u : Nat) : List Nat :=
  g.edges.filterMap (fun e =>
    if e.1 == u then some e.2.1 else if e.2.1 == u then some e.1 else none)

/-- All simple paths from `u` to `t` avoiding `vis`, with enough fuel to
visit every node once. -/
def spAux (g : Graph) (t : Nat) : Nat → Nat → List Nat → List (List Nat)
  | 0, u, _ => if u == t then [[u]] else []
  | fuel + 1, u, vis =>
    if u == t then [[u]]
    else
      (neighborsList g u).foldr (fun n acc =>
        if vis.contains n || n == u then acc
        else (spAux g t fuel n (u :: vis)).map (fun p => u :: p) ++ acc) []

/-- All simple paths from `s` to `t` in `g`. -/
def simplePaths (g : Graph) (s t : Nat) : List (List Nat) :=
  spAux g t g.nodes.length s []

/-- `p` is a genuine shortest path from `s` to `t` in `g`: a simple path of
minimal total weight.  This is the contract the external search primitive
promises under an admissible heuristic. -/
def IsShortestSP (g : Graph) (s t : Nat) (p : List Nat) : Prop :=
  p ∈ simplePaths g s t ∧
    ∀ q ∈ simplePaths g s t, Graph.pathWeight g p ≤ Graph.pathWeight g q

instance (g : Graph) (s t : Nat) (p : List Nat) :
    Decidable (IsShortestSP g s t p) := by
  unfold IsShortestSP; infer_instance

/-- Total weight of an edge list, with the default of 1 for a missing weight
attribute, as `nx.minimum_spanning_tree` reads weights. -/
def totalWeight (es : List (Nat × Nat × Option Nat)) : Nat :=
  (es.map (fun e => e.2.2.getD 1)).sum

/-- Edge subsets of `g` of spanning-tree size that connect all of `g`'s
nodes. -/
def spanningCandidates (g : Graph) : List (List (Nat × Nat × Option Nat)) :=
  (g.edges.sublists.filter (fun es => es.length + 1 == g.nodes.length)).filter
    (fun es => connectedB ⟨g.nodes, es⟩)

/-- `t` is a minimum spanning tree of `g`: same node set, edges drawn from
`g` (as undirected weighted edges), tree-sized, connected, and of minimal
total weight among all spanning candidates.  This is the contract of the
external `minimum_spanning_tree` primitive. -/
def IsMSTof (g t : Graph) : Prop :=
  t.nodes = g.nodes ∧
    (∀ e ∈ t.edges, ∃ e' ∈ g.edges,
      Graph.matchesEdge e.1 e.2.1 e' = true ∧ e'.2.2 = e.2.2) ∧
    t.edges.length + 1 = t.nodes.length ∧
    connectedB t = true ∧
    ∀ es ∈ spanningCandidates g, totalWeight t.edges ≤ totalWeight es

instance (g t : Graph) : Decidable (IsMSTof g t) := by
  unfold IsMSTof; infer_instance

/-! ## Termination of the pruning loop -/

theorem processSnapshot_nodes_le (T : List Nat) (snap : List Nat) :
    ∀ g L rs es out, processSnapshot T g L rs es snap = .ok out →
      out.1.nodes.length ≤ g.nodes.length := by
  induction snap with
  | nil =>
    intro g L rs es out h
    simp only [processSnapshot] at h
    cases h
    exact Nat.le_refl _
  | cons node rest ih =>
    intro g L rs es out h
    simp only [processSnapshot] at h
    by_cases hn : g.hasNode node
    · simp only [hn, if_true] at h
      cases hfn : g.firstNeighbor node with
      | none => rw [hfn] at h; cases h
      | some nb =>
        rw [hfn] at h
        have := ih _ _ _ _ _ h
        refine Nat.le_trans this ?_
        exact (List.erase_sublist _ _).length_le
    · simp only [hn, if_false] at h
      cases h

theorem processSnapshot_nodes_lt (T : List Nat) (node : Nat) (rest : List Nat)
    (g : Graph) (L : List Nat) (rs : List RemEv) (es : List EnqEv) (out)
    (h : processSnapshot T g L rs es (node :: rest) = .ok out) :
    out.1.nodes.length < g.nodes.length := by
  simp only [processSnapshot] at h
  by_cases hn : g.hasNode node
  · simp only [hn, if_true] at h
    cases hfn : g.firstNeighbor node with
    | none => rw [hfn] at h; cases h
    | some nb =>
      rw [hfn] at h
      have hle := processSnapshot_nodes_le T rest _ _ _ _ _ h
      have hmem : node ∈ g.nodes := by
        have := hn
        simpa [Graph.hasNode] using this
      have herase : (g.nodes.erase node).length < g.nodes.length := by
        rw [List.length_erase_of_mem hmem]
        have : 0 < g.nodes.length := List.length_pos.mpr (by
          intro hnil; rw [hnil] at hmem; cases hmem)
        omega
      exact Nat.lt_of_le_of_lt hle herase
  · simp only [hn, if_false] at h
    cases h

/-- Fuel sufficiency: one more round than the node count always suffices, so
the fuelled loop never returns `none` at the fuel
`remove_redundant_nodes` supplies. -/
theorem pruneRounds_isSome (T : List Nat) :
    ∀ fuel (g : Graph) L rs es, g.nodes.length < fuel →
      (pruneRounds T fuel g L rs es).isSome := by
  intro fuel
  induction fuel with
  | zero => intro g L rs es h; omega
  | succ fuel ih =>
    intro g L rs es h
    cases L with
    | nil => simp [pruneRounds]
    | cons node rest =>
      simp only [pruneRounds]
      cases h2 : processSnapshot T g (node :: rest) rs es (node :: rest) with
      | error gc => simp
      | ok out =>
        obtain ⟨g', L', rs', es'⟩ := out
        have hlt := processSnapshot_nodes_lt T node rest g _ rs es _ h2
        exact ih g' L' rs' es' (by simp at hlt; omega)

/-! ## Claim C7: pruning an already-pruned graph is a no-op -/

/-- C7: if every degree-1 node of the input already is a terminal, the
worklist of `remove_redundant_nodes` starts empty, the loop never runs, and
the function returns a graph equal to its input. -/
theorem C7_pruner_idempotent_on_pruned (g : Graph) (T : List Nat)
    (h : ∀ v ∈ g.nodes, g.degree v = 1 → v ∈ T) :
    remove_redundant_nodes g T = .ok g := by
  have hfilter : g.nodes.filter (fun v => g.degree v == 1 && !(T.contains v)) = [] := by
    rw [List.filter_eq_nil_iff]
    intro v hv
    simp only [Bool.and_eq_true, beq_iff_eq, Bool.not_eq_true', not_and]
    intro hdeg
    simpa [List.contains] using h v hv hdeg
  simp only [remove_redundant_nodes, remove_redundant_nodesT, hfilter]
  rfl

/-! ## Claim C5: an unreachable terminal pair aborts the whole computation -/

theorem distLoop_no_ok (g0 : Graph) (astar : Graph → Nat → Nat → Option (List Nat)) :
    ∀ (ps : List (Nat × Nat)) (acc : Graph),
      (∃ pq ∈ ps, astar g0 pq.1 pq.2 = none) →
      ∀ D, distLoop g0 astar acc ps ≠ .ok D := by
  intro ps
  induction ps with
  | nil =>
    intro acc hex D
    obtain ⟨pq, hmem, _⟩ := hex
    cases hmem
  | cons hd rest ih =>
    intro acc hex D
    obtain ⟨p, q⟩ := hd
    cases hastar : astar g0 p q with
    | none => simp [distLoop, hastar]
    | some path =>
      simp only [distLoop, hastar]
      apply ih
      obtain ⟨pq, hmem, hnone⟩ := hex
      rcases List.mem_cons.mp hmem with heq | hrest
      · subst heq; rw [hastar] at hnone; cases hnone
      · exact ⟨pq, hrest, hnone⟩

/-- C5: when some pair of terminals is unreachable and the search primitive
(modelled from the spec: it fails exactly on unreachable targets) therefore
fails on that pair, `kou_et_al` propagates the failure — the caller receives
an error and no graph — and the Distance Graph Builder never produces a
distance graph. -/
theorem C5_unreachable_terminal_aborts (g0 : Graph)
    (astar : Graph → Nat → Nat → Option (List Nat)) (mst : Graph → Graph)
    (T : List Nat)
    (hcontract : ∀ u v : Nat, reachB g0 u v = false → astar g0 u v = none)
    (hunreach : ∃ pq ∈ combinations2 T, reachB g0 pq.1 pq.2 = false) :
    kou_et_al g0 astar mst T = .error () ∧
      ∀ D, get_complete_distance_graph g0 astar T ≠ .ok D := by
  have hnone : ∃ pq ∈ combinations2 T, astar g0 pq.1 pq.2 = none := by
    obtain ⟨pq, hmem, hfls⟩ := hunreach
    exact ⟨pq, hmem, hcontract _ _ hfls⟩
  have hno : ∀ D, get_complete_distance_graph g0 astar T ≠ .ok D :=
    distLoop_no_ok g0 astar (combinations2 T) _ hnone
  refine ⟨?_, hno⟩
  unfold kou_et_al
  cases hg : get_complete_distance_graph g0 astar T with
  | error gp => rfl
  | ok D => exact absurd hg (hno D)

/-! ## Claim C4 (amended): an empty terminal list yields an empty graph -/

/-- Amended C4: with an empty terminal list `kou_et_al` raises nothing:
every stage runs on empty data (given that the MST primitive maps the empty
graph to itself, as networkx does) and the caller receives the empty graph.
There is no input validation before graph construction. -/
theorem C4_amended_empty_terminals_returns_empty (g0 : Graph)
    (astar : Graph → Nat → Nat → Option (List Nat)) (mst : Graph → Graph)
    (h : mst Graph.empty = Graph.empty) :
    kou_et_al g0 astar mst [] = .ok Graph.empty := by
  have h1 : kou_et_al g0 astar mst [] =
      (match expandLoop g0 astar Graph.empty (Graph.edgePairs (mst Graph.empty)) with
       | .error _ => .error ()
       | .ok g3 =>
         match remove_redundant_nodes (mst g3) [] with
         | .error _ => .error ()
         | .ok g5 => .ok g5) := rfl
  rw [h1, h]
  have h2 : (match expandLoop g0 astar Graph.empty (Graph.edgePairs Graph.empty) with
       | .error _ => (.error () : Except Unit Graph)
       | .ok g3 =>
         match remove_redundant_nodes (mst g3) [] with
         | .error _ => .error ()
         | .ok g5 => .ok g5) =
      (match remove_redundant_nodes (mst Graph.empty) [] with
       | .error _ => (.error () : Except Unit Graph)
       | .ok g5 => .ok g5) := rfl
  rw [h2, h]
  rfl

/-! ## Claim C8: the distance graph is complete over the terminals -/

theorem combinations2_mem : ∀ (T : List Nat), ∀ pq ∈ combinations2 T,
    pq.1 ∈ T ∧ pq.2 ∈ T := by
  intro T
  induction T with
  | nil => intro pq h; cases h
  | cons x xs ih =>
    intro pq h
    simp only [combinations2, List.mem_append, List.mem_map] at h
    rcases h with ⟨y, hy, rfl⟩ | h
    · exact ⟨List.mem_cons_self _ _, List.mem_cons_of_mem _ hy⟩
    · obtain ⟨h1, h2⟩ := ih pq h
      exact ⟨List.mem_cons_of_mem _ h1, List.mem_cons_of_mem _ h2⟩

theorem combinations2_pairwise (T : List Nat) (h : T.Nodup) :
    List.Pairwise
      (fun a b : Nat × Nat => Graph.matchesEdge b.1 b.2 (a.1, a.2, none) = false)
      (combinations2 T) := by
  induction T with
  | nil => exact List.Pairwise.nil
  | cons x xs ih =>
    obtain ⟨hx, hxs⟩ := List.nodup_cons.mp h
    simp only [combinations2]
    rw [List.pairwise_append]
    refine ⟨?_, ih hxs, ?_⟩
    · rw [List.pairwise_map]
      refine List.Pairwise.imp_of_mem ?_ hxs
      intro y1 y2 hy1 hy2 hne
      have hxy2 : x ≠ y2 := fun hc => hx (hc ▸ hy2)
      simp only [Graph.matchesEdge]
      simp only [Bool.or_eq_false_iff, Bool.and_eq_false_iff, beq_eq_false_iff_ne, ne_eq]
      constructor
      · right; exact fun hc => hne hc
      · left; exact fun hc => hxy2 hc
    · intro a ha b hb
      obtain ⟨y, hy, rfl⟩ := List.mem_map.mp ha
      obtain ⟨hb1, hb2⟩ := combinations2_mem xs b hb
      have hxb1 : x ≠ b.1 := fun hc => hx (hc ▸ hb1)
      have hxb2 : x ≠ b.2 := fun hc => hx (hc ▸ hb2)
      simp only [Graph.matchesEdge]
      simp only [Bool.or_eq_false_iff, Bool.and_eq_false_iff, beq_eq_false_iff_ne, ne_eq]
      constructor
      · left; exact fun hc => hxb1 hc
      · left; exact fun hc => hxb2 hc

theorem combinations2_length : ∀ (T : List Nat),
    2 * (combinations2 T).length = T.length * (T.length - 1) := by
  intro T
  induction T with
  | nil => rfl
  | cons x xs ih =>
    simp only [combinations2, List.length_append, List.length_map, List.length_cons]
    cases hm : xs.length with
    | zero =>
      have : combinations2 xs = [] := by
        cases xs with
        | nil => rfl
        | cons a l => simp at hm
      simp [this, hm]
    | succ k =>
      rw [hm] at ih
      simp only [Nat.add_sub_cancel] at ih ⊢
      nlinarith [ih]

theorem addNodesFrom_nodup : ∀ (T ns : List Nat) (es : List (Nat × Nat × Option Nat)),
    (∀ v ∈ T, ¬ v ∈ ns) → T.Nodup →
    Graph.addNodesFrom ⟨ns, es⟩ T = ⟨ns ++ T, es⟩ := by
  intro T
  induction T with
  | nil => intro ns es _ _; simp [Graph.addNodesFrom]
  | cons x xs ih =>
    intro ns es hdisj hnd
    obtain ⟨hx, hxs⟩ := List.nodup_cons.mp hnd
    have hstep : Graph.addNode ⟨ns, es⟩ x = ⟨ns ++ [x], es⟩ := by
      have : (Graph.mk ns es).hasNode x = false := by
        simp only [Graph.hasNode]
        cases hc : ns.contains x
        · rfl
        · exact absurd (List.mem_of_elem_eq_true hc)
            (hdisj x (List.mem_cons_self _ _))
      simp [Graph.addNode, this]
    show Graph.addNodesFrom ⟨ns, es⟩ (x :: xs) = _
    simp only [Graph.addNodesFrom, List.foldl_cons]
    rw [show List.foldl Graph.addNode (Graph.addNode ⟨ns, es⟩ x) xs =
        Graph.addNodesFrom (Graph.addNode ⟨ns, es⟩ x) xs from rfl, hstep]
    rw [ih (ns ++ [x]) es ?_ hxs]
    · simp
    · intro v hv
      simp only [List.mem_append, List.mem_singleton]
      rintro (hin | rfl)
      · exact hdisj v (List.mem_cons_of_mem _ hv) hin
      · exact hx hv

theorem distLoop_build (g0 : Graph) (astar : Graph → Nat → Nat → Option (List Nat)) :
    ∀ (ps : List (Nat × Nat)) (ns : List Nat) (done : List (Nat × Nat × Option Nat)),
      (∀ pq ∈ ps, (astar g0 pq.1 pq.2).isSome) →
      (∀ pq ∈ ps, pq.1 ∈ ns ∧ pq.2 ∈ ns) →
      (∀ pq ∈ ps, ∀ e ∈ done, Graph.matchesEdge pq.1 pq.2 e = false) →
      List.Pairwise
        (fun a b : Nat × Nat => Graph.matchesEdge b.1 b.2 (a.1, a.2, none) = false) ps →
      distLoop g0 astar ⟨ns, done⟩ ps =
        .ok ⟨ns, done ++ ps.map (fun pq => (pq.1, pq.2,
          some (Graph.pathWeight g0 ((astar g0 pq.1 pq.2).getD []))))⟩ := by
  intro ps
  induction ps with
  | nil => intro ns done _ _ _ _; simp [distLoop]
  | cons hd rest ih =>
    intro ns done hsome hmem hfresh hpw
    obtain ⟨p, q⟩ := hd
    obtain ⟨path, hpath⟩ := Option.isSome_iff_exists.mp
      (hsome (p, q) (List.mem_cons_self _ _))
    have hpath' : astar g0 p q = some path := hpath
    have hp : p ∈ ns := (hmem (p, q) (List.mem_cons_self _ _)).1
    have hq : q ∈ ns := (hmem (p, q) (List.mem_cons_self _ _)).2
    have haddp : Graph.addNode ⟨ns, done⟩ p = ⟨ns, done⟩ := by
      simp [Graph.addNode, Graph.hasNode, hp]
    have haddq : Graph.addNode ⟨ns, done⟩ q = ⟨ns, done⟩ := by
      simp [Graph.addNode, Graph.hasNode, hq]
    have hany : done.any (Graph.matchesEdge p q) = false := by
      rw [List.any_eq_false]
      intro e he
      have hf : Graph.matchesEdge p q e = false :=
        hfresh (p, q) (List.mem_cons_self _ _) e he
      simp [hf]
    have hedge : Graph.addEdge ⟨ns, done⟩ p q
        (some (Graph.pathWeight g0 path)) =
        ⟨ns, done ++ [(p, q, some (Graph.pathWeight g0 path))]⟩ := by
      simp only [Graph.addEdge, haddp, haddq, hany]
      simp
    simp only [distLoop, hpath', hedge]
    rw [ih ns (done ++ [(p, q, some (Graph.pathWeight g0 path))]) ?_ ?_ ?_ ?_]
    · simp [hpath']
    · intro pq hpq; exact hsome pq (List.mem_cons_of_mem _ hpq)
    · intro pq hpq; exact hmem pq (List.mem_cons_of_mem _ hpq)
    · intro pq hpq e he
      rcases List.mem_append.mp he with hdone | hnew
      · exact hfresh pq (List.mem_cons_of_mem _ hpq) e hdone
      · rw [List.mem_singleton] at hnew
        subst hnew
        exact (List.pairwise_cons.mp hpw).1 pq hpq
    · exact (List.pairwise_cons.mp hpw).2

theorem getEdgeData_map_pairwise (ns : List Nat) (wf : Nat × Nat → Option Nat) :
    ∀ (ps : List (Nat × Nat)),
      List.Pairwise
        (fun a b : Nat × Nat => Graph.matchesEdge b.1 b.2 (a.1, a.2, none) = false) ps →
      ∀ pq ∈ ps,
        Graph.getEdgeData ⟨ns, ps.map (fun r => (r.1, r.2, wf r))⟩ pq.1 pq.2 =
          some (wf pq) := by
  intro ps
  induction ps with
  | nil => intro _ pq h; cases h
  | cons r rest ih =>
    intro hpw pq hmem
    obtain ⟨hhead, hrest⟩ := List.pairwise_cons.mp hpw
    rcases List.mem_cons.mp hmem with rfl | hin
    · have hm : Graph.matchesEdge pq.1 pq.2 (pq.1, pq.2, wf pq) = true := by
        simp [Graph.matchesEdge]
      simp only [Graph.getEdgeData, List.map_cons, List.find?_cons_of_pos _ hm]
      rfl
    · have hm : Graph.matchesEdge pq.1 pq.2 (r.1, r.2, wf r) = false :=
        hhead pq hin
      have hneg : ¬ Graph.matchesEdge pq.1 pq.2 (r.1, r.2, wf r) = true := by
        simp [hm]
      simp only [Graph.getEdgeData, List.map_cons, List.find?_cons_of_neg _ hneg]
      exact ih hrest pq hin

/-- C8: on distinct terminals whose pairs the search primitive all answers,
`get_complete_distance_graph` succeeds with a graph whose node list is
exactly the terminal list, which has one edge per unordered terminal pair
(`k(k-1)/2` of them), and whose edge weights are the returned path lengths
(`astar_path_length`, the total weight of the returned shortest path). -/
theorem C8_distance_graph_complete (g0 : Graph)
    (astar : Graph → Nat → Nat → Option (List Nat)) (T : List Nat)
    (hT : T.Nodup)
    (hs : ∀ pq ∈ combinations2 T, (astar g0 pq.1 pq.2).isSome) :
    ∃ D, get_complete_distance_graph g0 astar T = .ok D ∧
      D.nodes = T ∧
      D.edges.length = T.length * (T.length - 1) / 2 ∧
      ∀ pq ∈ combinations2 T, D.getEdgeData pq.1 pq.2 =
        some (some (Graph.pathWeight g0 ((astar g0 pq.1 pq.2).getD []))) := by
  have hbase : Graph.empty.addNodesFrom T = ⟨T, []⟩ := by
    have := addNodesFrom_nodup T [] [] (by intro v _ h; cases h) hT
    simpa [Graph.empty] using this
  have hpw := combinations2_pairwise T hT
  have hbuild := distLoop_build g0 astar (combinations2 T) T []
    hs (fun pq hpq => combinations2_mem T pq hpq)
    (by intro pq _ e he; cases he) hpw
  refine ⟨⟨T, (combinations2 T).map (fun pq => (pq.1, pq.2,
    some (Graph.pathWeight g0 ((astar g0 pq.1 pq.2).getD []))))⟩, ?_, rfl, ?_, ?_⟩
  · rw [get_complete_distance_graph, hbase, hbuild]
    simp
  · simp only [List.length_map]
    have := combinations2_length T
    omega
  · intro pq hpq
    exact getEdgeData_map_pairwise T _ (combinations2 T) hpw pq hpq

/-! ## Concrete instances

`GC1` realises the pruner defect inside the full pipeline: terminals 1, 2, 3
(with Steiner candidates 4 = a, 5 = m, 6 = p, 7 = q), two tied shortest
routes between the branch nodes, and a heaviest cycle edge that the subgraph
MST removes, leaving the non-terminal leaf 6 hanging off the degree-4
junction 5. -/

def GC1 : Graph :=
  ⟨[1, 2, 3, 4, 5, 6, 7],
   [(1, 4, some 15), (4, 5, some 5), (5, 6, some 5), (6, 2, some 7),
    (2, 7, some 6), (7, 5, some 6), (5, 3, some 25)]⟩

/-- Search-primitive table for `GC1`: each answer is a genuine shortest path
(proved in the C1 theorem); the two tied routes between 2 and 5 are taken
through 6 for the pair (1, 2) and through 7 for the pair (2, 3), a
resolution the best-first search reaches with the zero heuristic because the
edge 2-7 is cheaper from 2 while node 6 is reached more cheaply from 5. -/
def astarC1 (g : Graph) (s t : Nat) : Option (List Nat) :=
  if g = GC1 then
    match s, t with
    | 1, 2 => some [1, 4, 5, 6, 2]
    | 1, 3 => some [1, 4, 5, 3]
    | 2, 3 => some [2, 7, 5, 3]
    | _, _ => none
  else none

/-- The distance graph `kou_et_al` builds over the terminals of `GC1`. -/
def g1C1 : Graph :=
  ⟨[1, 2, 3], [(1, 2, some 32), (1, 3, some 45), (2, 3, some 37)]⟩

/-- Its unique minimum spanning tree, edges in Kruskal order. -/
def g2C1 : Graph :=
  ⟨[1, 2, 3], [(1, 2, some 32), (2, 3, some 37)]⟩

/-- The accumulator subgraph from expanding the two selected pairs. -/
def g3C1 : Graph :=
  ⟨[1, 4, 5, 6, 2, 7, 3],
   [(1, 4, some 15), (4, 5, some 5), (5, 6, some 5), (6, 2, some 7),
    (2, 7, some 6), (7, 5, some 6), (5, 3, some 25)]⟩

/-- Its unique minimum spanning tree: the heaviest cycle edge (6, 2) is
gone, so node 6 is a non-terminal leaf attached to the junction 5. -/
def g4C1 : Graph :=
  ⟨[1, 4, 5, 6, 2, 7, 3],
   [(4, 5, some 5), (5, 6, some 5), (2, 7, some 6), (7, 5, some 6),
    (1, 4, some 15), (5, 3, some 25)]⟩

/-- MST-primitive table used with `GC1`; its two consulted answers are
proved to be genuine minimum spanning trees in the C1 theorem. -/
def mstC1 (g : Graph) : Graph :=
  if g = g1C1 then g2C1 else if g = g3C1 then g4C1 else g

/-- What `kou_et_al` returns on `GC1`: terminals 1 and 3 end up isolated
and node 7 is a non-terminal leaf. -/
def resC1 : Graph := ⟨[1, 2, 7, 3], [(2, 7, some 6)]⟩

/-- C1 (refuting evaluation): on `GC1` the pipeline, fed genuine shortest
paths and genuine minimum spanning trees, returns a graph that is not
connected, has edge count 1 instead of node count minus one, and has the
non-terminal leaf 7 — the Result-Tree invariants fail. -/
theorem C1_kou_result_violates_tree_invariants :
    IsShortestSP GC1 1 2 [1, 4, 5, 6, 2] ∧
    IsShortestSP GC1 1 3 [1, 4, 5, 3] ∧
    IsShortestSP GC1 2 3 [2, 7, 5, 3] ∧
    IsMSTof g1C1 (mstC1 g1C1) ∧
    IsMSTof g3C1 (mstC1 g3C1) ∧
    kou_et_al GC1 astarC1 mstC1 [1, 2, 3] = .ok resC1 ∧
    connectedB resC1 = false ∧
    resC1.edges.length + 1 ≠ resC1.nodes.length ∧
    Graph.degree resC1 7 = 1 ∧ ¬ 7 ∈ ([1, 2, 3] : List Nat) ∧
    (∀ t ∈ ([1, 2, 3] : List Nat), t ∈ resC1.nodes) := by
  refine ⟨by decide, by decide, by decide, by decide, by decide,
    rfl, by decide, by decide, by decide, by decide, by decide⟩

/-! ## Claim C2: the pruning loop's removal and enqueue discipline -/

/-- The pruner's trace on the tree `g4C1` (terminals 1, 2, 3). -/
def remsC2 : List RemEv := [⟨6, 1⟩, ⟨5, 3⟩, ⟨4, 1⟩]

/-- The pruner's enqueue log on that run. -/
def enqsC2 : List EnqEv := [⟨5, 3, false⟩, ⟨4, 1, false⟩]

/-- C2 (refuting evaluation): running `remove_redundant_nodes` on the tree
`g4C1` enqueues node 5 although its degree dropped only to 3, then removes
node 5 while its degree is 3 — both against the claimed discipline — and the
returned graph even keeps the non-terminal leaf 7, against the function's
own docstring. -/
theorem C2_pruner_removes_degree_three_node :
    remove_redundant_nodesT g4C1 [1, 2, 3] =
      .ok (resC1, remsC2, enqsC2) ∧
    (⟨5, 3⟩ : RemEv) ∈ remsC2 ∧ (3 : Nat) ≠ 1 ∧
    (⟨5, 3, false⟩ : EnqEv) ∈ enqsC2 ∧
    Graph.degree g4C1 5 = 4 ∧
    Graph.degree resC1 7 = 1 ∧ ¬ 7 ∈ ([1, 2, 3] : List Nat) := by
  refine ⟨rfl, by decide, by decide, by decide, by decide, by decide, by decide⟩

/-! ## Claim C3: a single terminal does not yield a single-node tree -/

/-- The one-node graph of the repository's own grid test at `n = 1`. -/
def GC3 : Graph := ⟨[9], []⟩

/-- An MST primitive that returns its input unchanged; on every graph it is
consulted with in the single-terminal run (the one-node distance graph) this
is the genuine minimum spanning tree, and on the empty graph it matches
networkx, which maps the empty graph to the empty graph. -/
def mstId (g : Graph) : Graph := g

/-- A search primitive that is never consulted (no terminal pairs exist). -/
def astarNone (_ : Graph) (_ _ : Nat) : Option (List Nat) := none

/-- C3 (refuting evaluation): with the single terminal 9 present in the
graph, `kou_et_al` returns the empty graph — node 9 is absent from the
result, because the accumulator subgraph `g3 = nx.Graph()` only ever gains
nodes through `add_edge` and there are no selected pairs.  The claimed
single-node tree is not produced. -/
theorem C3_single_terminal_returns_empty_graph :
    kou_et_al GC3 astarNone mstId [9] = .ok Graph.empty ∧
    Graph.empty.nodes = [] ∧
    ¬ 9 ∈ Graph.empty.nodes ∧
    IsMSTof GC3 (mstId GC3) ∧
    GC3.hasNode 9 = true := by
  refine ⟨rfl, rfl, by decide, by decide, by decide⟩

/-! ## Claim C4: an empty terminal list does not raise -/

/-- C4 (refuting evaluation): with an empty terminal list `kou_et_al`
returns a result graph (the empty graph) instead of failing — there is no
InvalidInput check anywhere in the function. -/
theorem C4_empty_terminals_no_error :
    kou_et_al GC1 astarC1 mstId [] = .ok Graph.empty := rfl

/-- Witness for the amended C4 at a concrete instance. -/
theorem C4_amended_empty_terminals_returns_empty_witness :
    mstId Graph.empty = Graph.empty ∧
    kou_et_al GC3 astarNone mstId [] = .ok Graph.empty :=
  ⟨rfl, C4_amended_empty_terminals_returns_empty GC3 astarNone mstId rfl⟩

/-! ## Claim C6: a missing weight attribute crashes the path expansion -/

/-- Two nodes joined by an edge that carries no weight attribute. -/
def GC6 : Graph := ⟨[1, 2], [(1, 2, none)]⟩

/-- The identically shaped graph with the weight attribute set to 1. -/
def GC6w : Graph := ⟨[1, 2], [(1, 2, some 1)]⟩

/-- Search primitive for both graphs: the one-edge path, which is the only
and hence shortest path, with the missing weight read as 1. -/
def astarC6 (_ : Graph) (s t : Nat) : Option (List Nat) :=
  if s == 1 && t == 2 then some [1, 2] else none

/-- C6 (refuting evaluation): on the attribute-less graph the run fails —
the expansion stage evaluates `g_original[u][v][weight]`, a `KeyError` —
while the identically shaped graph with weight 1 completes; so the missing
attribute is *not* treated as 1 in every stage.  The distance stage itself
does default to 1: both graphs produce the same distance graph. -/
theorem C6_missing_weight_attribute_raises :
    kou_et_al GC6 astarC6 mstId [1, 2] = .error () ∧
    kou_et_al GC6w astarC6 mstId [1, 2] = .ok GC6w ∧
    get_complete_distance_graph GC6 astarC6 [1, 2] =
      get_complete_distance_graph GC6w astarC6 [1, 2] ∧
    IsShortestSP GC6 1 2 [1, 2] ∧
    GC6.nodes = GC6w.nodes ∧
    Graph.edgePairs GC6 = Graph.edgePairs GC6w := by
  refine ⟨rfl, rfl, rfl, by decide, rfl, rfl⟩

/-! ## Witnesses for the hypothesis-bearing theorems -/

/-- Two terminals in different components of an edgeless graph. -/
def GC5 : Graph := ⟨[1, 2], []⟩

/-- Witness for C5 at a concrete instance: on the two-component graph the
(contract-conforming) search fails and `kou_et_al` aborts. -/
theorem C5_unreachable_terminal_aborts_witness :
    kou_et_al GC5 astarNone mstId [1, 2] = .error () ∧
      ∀ D, get_complete_distance_graph GC5 astarNone [1, 2] ≠ .ok D :=
  C5_unreachable_terminal_aborts GC5 astarNone mstId [1, 2]
    (fun _ _ _ => rfl) ⟨(1, 2), by decide, by decide⟩

/-- Witness for C7 at a concrete instance: a single-edge tree between two
terminals is returned unchanged. -/
theorem C7_pruner_idempotent_on_pruned_witness :
    remove_redundant_nodes GC6w [1, 2] = .ok GC6w :=
  C7_pruner_idempotent_on_pruned GC6w [1, 2] (by decide)

/-- Witness for C8 at a concrete instance: the distance graph over the
three terminals of `GC1`. -/
theorem C8_distance_graph_complete_witness :
    ∃ D, get_complete_distance_graph GC1 astarC1 [1, 2, 3] = .ok D ∧
      D.nodes = [1, 2, 3] ∧
      D.edges.length = 3 * (3 - 1) / 2 ∧
      ∀ pq ∈ combinations2 [1, 2, 3], D.getEdgeData pq.1 pq.2 =
        some (some (Graph.pathWeight GC1 ((astarC1 GC1 pq.1 pq.2).getD []))) :=
  C8_distance_graph_complete GC1 astarC1 [1, 2, 3] (by decide) (by decide)

/-! ## Claims C9 and C10: neither function mutates its graph argument

Python passes graphs by reference, so the frame claims are stated over an
explicit object store: a list of graph objects indexed by reference.  The
source only ever *reads* `g_original` (the copy constructor, the search
calls and the `g_original[u][v][weight]` lookups); every graph either
function builds is a freshly allocated object, appended at the end of the
store, and all in-place mutation (`add_edge`, `remove_node`) targets those
fresh objects.  Each `_st` function below returns the final store together
with the reference of the object handed back to the caller. -/

/-- An object store of graph objects; a reference is an index. -/
abbrev Store := List Graph

/-- Dereference (out-of-range references read as the empty graph). -/
def readG (s : Store) (r : Nat) : Graph := s.getD r Graph.empty

/-- `remove_redundant_nodes` over the store: reads the argument once for the
`nx.Graph(g_original)` copy, allocates the copy as a fresh object, and runs
the pruning loop, whose every mutation hits that fresh object; its final
value (or its value at the moment an exception escapes) is what the
allocation holds afterwards.  Returns (store, reference of the returned
object, whether the call completed without an exception). -/
def remove_redundant_nodes_st (s : Store) (gref : Nat) (T : List Nat) :
    Store × Nat × Bool :=
  let g0 := readG s gref
  match remove_redundant_nodesT g0 T with
  | .ok (g5, _, _) => (s ++ [g5], s.length, true)
  | .error gc => (s ++ [gc], s.length, false)

/-- `kou_et_al` over the store: `g_original` is only read; the stage graphs
`g1`, `g2`, `g3`, `g4` and the pruner's copy are fresh allocations (on an
exception, the allocation of the stage that raised holds its state at the
raise).  Returns the final store and the reference of the result. -/
def kou_et_al_st (s : Store) (gref : Nat)
    (astar : Graph → Nat → Nat → Option (List Nat)) (mst : Graph → Graph)
    (T : List Nat) : Store × Except Unit Nat :=
  let g0 := readG s gref
  match get_complete_distance_graph g0 astar T with
  | .error gp => (s ++ [gp], .error ())
  | .ok g1 =>
    let g2 := mst g1
    match expandLoop g0 astar Graph.empty (Graph.edgePairs g2) with
    | .error gp => (s ++ [g1, g2, gp], .error ())
    | .ok g3 =>
      let g4 := mst g3
      match remove_redundant_nodesT g4 T with
      | .error gc => (s ++ [g1, g2, g3, g4, gc], .error ())
      | .ok (g5, _, _) =>
        (s ++ [g1, g2, g3, g4, g5], .ok (s.length + 4))

theorem readG_append (s : Store) (l : List Graph) (r : Nat) (h : r < s.length) :
    readG (s ++ l) r = readG s r := by
  unfold readG
  rw [List.getD_eq_getElem?_getD, List.getD_eq_getElem?_getD,
    List.getElem?_append, if_pos h]

/-- C9: `kou_et_al` never writes through its graph argument: whether the
call succeeds or raises, the object the caller passed in holds exactly the
same graph (same nodes, edges and weights) afterwards. -/
theorem C9_kou_does_not_mutate_input (s : Store) (gref : Nat)
    (astar : Graph → Nat → Nat → Option (List Nat)) (mst : Graph → Graph)
    (T : List Nat) (h : gref < s.length) :
    readG ((kou_et_al_st s gref astar mst T).1) gref = readG s gref := by
  simp only [kou_et_al_st]
  split
  · exact readG_append s _ gref h
  · split
    · exact readG_append s _ gref h
    · split
      · exact readG_append s _ gref h
      · exact readG_append s _ gref h

/-- Witness for C9 at a concrete instance. -/
theorem C9_kou_does_not_mutate_input_witness :
    readG ((kou_et_al_st [GC1] 0 astarC1 mstC1 [1, 2, 3]).1) 0 =
      readG [GC1] 0 :=
  C9_kou_does_not_mutate_input [GC1] 0 astarC1 mstC1 [1, 2, 3] (by decide)

/-- C10: `remove_redundant_nodes` operates on a fresh copy: the argument
object is unchanged afterwards and the returned object is a different
object than the argument. -/
theorem C10_pruner_does_not_mutate_input (s : Store) (gref : Nat)
    (T : List Nat) (h : gref < s.length) :
    readG ((remove_redundant_nodes_st s gref T).1) gref = readG s gref ∧
    (remove_redundant_nodes_st s gref T).2.1 ≠ gref := by
  simp only [remove_redundant_nodes_st]
  split
  · exact ⟨readG_append s _ gref h, by simp; omega⟩
  · exact ⟨readG_append s _ gref h, by simp; omega⟩

/-- Witness for C10 at a concrete instance. -/
theorem C10_pruner_does_not_mutate_input_witness :
    readG ((remove_redundant_nodes_st [g4C1] 0 [1, 2, 3]).1) 0 =
      readG [g4C1] 0 ∧
    (remove_redundant_nodes_st [g4C1] 0 [1, 2, 3]).2.1 ≠ 0 :=
  C10_pruner_does_not_mutate_input [g4C1] 0 [1, 2, 3] (by decide)
